import Mathlib

/-!
Verification of the RevStrux reconciliation engine against its
natural-language specification.  The repository ships the React frontend;
the backend engine (FastAPI, engine.py) is not part of the source tree, so
engine-side behaviour is modelled from the specification text, while
frontend behaviour (upload gating, status ordering, badge rendering) is
translated directly from the JavaScript sources.

Monetary amounts are integer cents; dates are absolute day numbers derived
from a proleptic Gregorian calendar indexed by absolute month number.
-/

namespace RevStrux

/-! ## Calendar model

A date is a pair of an absolute month index (year * 12 + month0) and a
1-based day of month.  Leap years follow the Gregorian rule. -/

def isLeapYear (y : ℕ) : Bool :=
  (y % 4 == 0 && y % 100 != 0) || (y % 400 == 0)

/-- Number of days of month index `mi` (year = mi / 12, month = mi % 12 + 1). -/
def daysInMonth (mi : ℕ) : ℕ :=
  if mi % 12 + 1 = 2 then (if isLeapYear (mi / 12) then 29 else 28)
  else if mi % 12 + 1 = 4 ∨ mi % 12 + 1 = 6 ∨ mi % 12 + 1 = 9 ∨ mi % 12 + 1 = 11 then 30
  else 31

/-- Cumulative day count of all months before month index `mi`. -/
def daysBefore : ℕ → ℕ
  | 0 => 0
  | n + 1 => daysBefore n + daysInMonth n

/-- Absolute (1-based) day number of the first day of month `mi`. -/
def monthFirst (mi : ℕ) : ℕ := daysBefore mi + 1

/-- Absolute day number of the last day of month `mi`. -/
def monthLast (mi : ℕ) : ℕ := daysBefore (mi + 1)

/-- A calendar date: absolute month index and 1-based day of month. -/
structure DateRec where
  mi : ℕ
  day : ℕ
deriving DecidableEq, Repr

/-- Absolute day number of a date. -/
def absOf (d : DateRec) : ℕ := daysBefore d.mi + d.day

/-- A date is valid when its day lies inside its month. -/
def validDate (d : DateRec) : Prop := 1 ≤ d.day ∧ d.day ≤ daysInMonth d.mi

instance (d : DateRec) : Decidable (validDate d) := by
  unfold validDate; infer_instance

/-! ## Rounding

round_half_even on rational cent values, used by the lifecycle builder. -/

/-- Banker rounding of a rational to the nearest integer, halves to even. -/
def roundHalfEven (x : ℚ) : ℤ :=
  let f : ℤ := ⌊x⌋
  let r : ℚ := x - f
  if r < 1/2 then f
  else if 1/2 < r then f + 1
  else if f % 2 = 0 then f else f + 1

/-- Round a rational to the nearest integer, halves upward. -/
def roundNearest (x : ℚ) : ℤ := ⌊x + 1/2⌋

/-- Banker rounding of the quotient n / d computed on integers; agrees
with roundHalfEven of the rational quotient for positive d. -/
def roundHalfEvenDiv (n : ℤ) (d : ℕ) : ℤ :=
  let q := n / (d : ℤ)
  let r := n - q * d
  if 2 * r < (d : ℤ) then q
  else if (d : ℤ) < 2 * r then q + 1
  else if q % 2 = 0 then q else q + 1

/-- Nearest rounding of the quotient n / d computed on integers; agrees
with roundNearest of the rational quotient for positive d. -/
def roundNearestDiv (n : ℤ) (d : ℕ) : ℤ := (2 * n + d) / (2 * (d : ℤ))

/-! ## Upload gating (frontend)

Translated from UploadPage.js (smart upload) and the legacy upload page
FILE_TYPES table. -/

/-- The six CSV input tables of the engine. -/
def sixTables : List String :=
  ["accounts", "customers", "subscriptions", "invoices", "payments", "credit_notes"]

/-- Required types for smart-upload validation, UploadPage.js line 295. -/
def requiredTypes : List String :=
  ["accounts", "customers", "subscriptions", "invoices"]

/-- Missing required list, UploadPage.js line 296. -/
def missingRequired (storedTypes : List String) : List String :=
  requiredTypes.filter (fun t => ! storedTypes.contains t)

/-- Validation gate of the smart upload page, UploadPage.js line 297. -/
def canValidate (storedTypes : List String) : Bool :=
  decide (0 < storedTypes.length) && decide ((missingRequired storedTypes).length = 0)

/-- File-type table of the legacy upload page (key, required flag). -/
def legacyFileTypes : List (String × Bool) :=
  [("accounts", true), ("customers", true), ("subscriptions", true),
   ("invoices", true), ("payments", true), ("credit_notes", false)]

/-- Gate of the legacy upload page: every required type uploaded. -/
def legacyRequiredUploaded (uploads : List String) : Bool :=
  (legacyFileTypes.filter (fun f => f.2)).all (fun f => uploads.contains f.1)

/-! ## Variance badge (frontend)

Translated from the VarianceBadge component in App.js lines 259 to 270. -/

/-- Badge map of VarianceBadge: status key to (label, css class). -/
def varianceBadgeMap : List (String × String × String) :=
  [("CLEAN", "Clean", "badge-clean"),
   ("MISSING_INVOICE", "Missing Invoice", "badge-missing"),
   ("UNDER_BILLED", "Under-billed", "badge-under"),
   ("OVER_BILLED", "Over-billed", "badge-over"),
   ("UNPAID_AR", "Unpaid AR", "badge-unpaid"),
   ("UNKNOWN", "Unknown", "badge-unknown")]

/-- The UNKNOWN fallback entry of the badge map. -/
def unknownBadge : String × String := ("Unknown", "badge-unknown")

/-- Badge rendering: a map lookup falling back to the UNKNOWN entry, the
JS expression map[type] || map[UNKNOWN].  A missing argument (null or
undefined) is modelled as none. -/
def varianceBadge (t : Option String) : String × String :=
  match t with
  | none => unknownBadge
  | some k => (varianceBadgeMap.lookup k).getD unknownBadge

/-- The six defined variance statuses. -/
def definedStatuses : List String :=
  ["CLEAN", "MISSING_INVOICE", "UNDER_BILLED", "OVER_BILLED", "UNPAID_AR", "UNKNOWN"]

/-! ## Variance classification (Phase C) -/

/-- Segment variance statuses of the reconciliation engine. -/
inductive VStatus where
  | CLEAN
  | MISSING_INVOICE
  | UNDER_BILLED
  | OVER_BILLED
  | UNPAID_AR
  | UNKNOWN
deriving DecidableEq, Repr

/-- Per-segment monetary totals entering Phase C classification. -/
structure SegTotals where
  hasCustomer : Bool
  expectedCents : ℤ
  invoicedCents : ℤ
  creditNotesCents : ℤ
  collectedCents : ℤ
deriving DecidableEq, Repr

/-- Tolerance τ, hardcoded at one dollar. -/
def toleranceCents : ℤ := 100

/-- Effective invoiced amount: invoiced minus credit notes. -/
def effectiveInvoiced (t : SegTotals) : ℤ := t.invoicedCents - t.creditNotesCents

/-- Segment variance: effective invoiced minus expected. -/
def varianceCents (t : SegTotals) : ℤ := effectiveInvoiced t - t.expectedCents

/-- Modelled from the spec: Phase C decision table of the reconciliation
engine (engine.py is not in the source tree), evaluated top to bottom with
tolerance τ = 100 cents.  The final arm is unreachable because the rows
are exhaustive. -/
def classify (t : SegTotals) : VStatus :=
  if ¬ t.hasCustomer then .UNKNOWN
  else if effectiveInvoiced t = 0 ∧ toleranceCents < t.expectedCents then .MISSING_INVOICE
  else if |varianceCents t| ≤ toleranceCents ∧
          effectiveInvoiced t - toleranceCents ≤ t.collectedCents then .CLEAN
  else if |varianceCents t| ≤ toleranceCents ∧
          t.collectedCents < effectiveInvoiced t - toleranceCents then .UNPAID_AR
  else if varianceCents t < -toleranceCents then .UNDER_BILLED
  else if toleranceCents < varianceCents t then .OVER_BILLED
  else .UNKNOWN

/-! ## Segments and invoice allocation (Phase A) -/

/-- A monthly revenue segment of a subscription. -/
structure Segment where
  subscriptionId : String
  periodMonth : ℕ
  segStart : ℕ
  segEnd : ℕ
  daysActive : ℕ
  totalDays : ℕ
  mrrEffCents : ℤ
  expectedCents : ℤ
  isProrated : Bool
deriving DecidableEq, Repr, Inhabited

/-- Invoice statuses after enum normalization. -/
inductive InvoiceStatus where
  | paid
  | unpaid
  | partlyPaid
  | voided
deriving DecidableEq, Repr

/-- A billing invoice row. -/
structure Invoice where
  invoiceId : String
  customerId : String
  periodStart : DateRec
  periodEnd : DateRec
  amountCents : ℤ
  status : InvoiceStatus
deriving DecidableEq, Repr

/-- An exclusion log entry. -/
structure Exclusion where
  recordType : String
  recordId : String
  reasonCode : String
  description : String
deriving DecidableEq, Repr

/-- Allocation methods. -/
inductive AllocMethod where
  | exact
  | proportional
  | standalone
deriving DecidableEq, Repr

/-- Outcome of Phase A for one invoice: an exclusion or an allocation. -/
inductive AllocResult where
  | excluded (e : Exclusion)
  | allocated (method : AllocMethod) (allocs : List (Segment × ℤ))
deriving DecidableEq, Repr

/-- Inclusive overlap day count between a segment day range and an invoice
billing period (zero when they do not meet). -/
def overlapDays (segStart segEnd ps pe : ℕ) : ℕ :=
  min segEnd pe + 1 - max segStart ps

/-- Segments of the same rsx whose day range overlaps the invoice period. -/
def overlappingSegs (inv : Invoice) (segs : List Segment) : List Segment :=
  segs.filter (fun s =>
    decide (0 < overlapDays s.segStart s.segEnd (absOf inv.periodStart) (absOf inv.periodEnd)))

/-- Proportional cent shares for overlap day counts ds: every share except
the last is the rounded proportional amount, and the final share absorbs
the rounding residue so the total equals the invoice amount exactly. -/
def propShares (amountCents : ℤ) (total : ℕ) (ds : List ℕ) : List ℤ :=
  match ds with
  | [] => []
  | _ :: _ =>
    let front := ds.dropLast.map (fun (d : ℕ) => roundNearestDiv (amountCents * (d : ℤ)) total)
    front ++ [amountCents - front.sum]

/-- Modelled from the spec: Phase A invoice allocation of the engine
(engine.py is not in the source tree).  Void invoices are excluded as
UNSUPPORTED_STRUCTURE; no overlapping segment yields an
ALLOCATION_AMBIGUOUS exclusion; one overlapping segment takes the full
amount with method exact; several overlapping segments are allocated
proportionally to overlap day counts with the final segment absorbing the
rounding residue. -/
def allocateInvoice (inv : Invoice) (segs : List Segment) : AllocResult :=
  if inv.status = .voided then
    .excluded ⟨"invoice", inv.invoiceId, "UNSUPPORTED_STRUCTURE", "void invoice"⟩
  else
    match overlappingSegs inv segs with
    | [] => .excluded ⟨"invoice", inv.invoiceId, "ALLOCATION_AMBIGUOUS", "no matching segment"⟩
    | [s] => .allocated .exact [(s, inv.amountCents)]
    | l =>
      let ds := l.map (fun s =>
        overlapDays s.segStart s.segEnd (absOf inv.periodStart) (absOf inv.periodEnd))
      .allocated .proportional (l.zip (propShares inv.amountCents ds.sum ds))

/-! ## Lifecycle Builder -/

/-- One ramp schedule override. -/
structure RampStep where
  effectiveDate : DateRec
  mrrCents : ℤ
deriving DecidableEq, Repr

/-- A CRM subscription row. -/
structure Subscription where
  subscriptionId : String
  accountId : String
  startDate : DateRec
  endDate : DateRec
  mrrCents : ℤ
  ramp : List RampStep
deriving DecidableEq, Repr

/-- Effective MRR at a day: the latest ramp override whose effective date
is at most the day, falling back to the base MRR. -/
def mrrAt (base : ℤ) (ramp : List RampStep) (day : ℕ) : ℤ :=
  (ramp.filter (fun e => decide (absOf e.effectiveDate ≤ day))).foldl
    (fun _ e => e.mrrCents) base

/-- Expected amount of a segment: MRR prorated by day count, rounded to
cents with banker rounding. -/
def expectedAmountCents (mrrEff : ℤ) (daysActive totalDays : ℕ) : ℤ :=
  roundHalfEvenDiv (mrrEff * (daysActive : ℤ)) totalDays

/-- Build one segment from a subscription, a month index and an inclusive
absolute day range. -/
def mkSegment (sub : Subscription) (mi a b : ℕ) : Segment :=
  let da := b + 1 - a
  let td := daysInMonth mi
  let mrrEff := mrrAt sub.mrrCents sub.ramp a
  { subscriptionId := sub.subscriptionId
    periodMonth := mi
    segStart := a
    segEnd := b
    daysActive := da
    totalDays := td
    mrrEffCents := mrrEff
    expectedCents := expectedAmountCents mrrEff da td
    isProrated := decide (da < td) }

/-- Split an inclusive day range at interior cut days: each cut day starts
a new sub-range. -/
def splitAtCuts : ℕ → ℕ → List ℕ → List (ℕ × ℕ)
  | a, b, [] => [(a, b)]
  | a, b, c :: rest => (a, c - 1) :: splitAtCuts c b rest

/-- Ramp change days lying strictly inside (a, b]. -/
def rampCuts (sub : Subscription) (a b : ℕ) : List ℕ :=
  (sub.ramp.map (fun e => absOf e.effectiveDate)).filter
    (fun c => decide (a < c) && decide (c ≤ b))

/-- Raw month tiles: one tile per month starting at month index mi,
clamped to the day range s..e. -/
def monthTilesFrom : ℕ → ℕ → ℕ → ℕ → List (ℕ × ℕ × ℕ)
  | 0, _, _, _ => []
  | n + 1, mi, s, e =>
    (mi, max (monthFirst mi) s, min (monthLast mi) e) :: monthTilesFrom n (mi + 1) s e

/-- Modelled from the spec: the Lifecycle Builder of the engine (engine.py
is not in the source tree).  The subscription interval is clamped to the
reporting period, sliced by calendar month, and each month tile is split
at ramp change days; subscriptions with negative MRR or end before start
are excluded and produce no segments; an empty intersection is skipped. -/
def buildSegments (sub : Subscription) (periodStart periodEnd : DateRec) : List Segment :=
  if sub.mrrCents < 0 ∨ absOf sub.endDate < absOf sub.startDate then []
  else
    let cs : DateRec :=
      if absOf periodStart ≤ absOf sub.startDate then sub.startDate else periodStart
    let ce : DateRec :=
      if absOf sub.endDate ≤ absOf periodEnd then sub.endDate else periodEnd
    if absOf ce < absOf cs then []
    else
      (monthTilesFrom (ce.mi + 1 - cs.mi) cs.mi (absOf cs) (absOf ce)).flatMap
        (fun t => (splitAtCuts t.2.1 t.2.2 (rampCuts sub t.2.1 t.2.2)).map
          (fun p => mkSegment sub t.1 p.1 p.2))

/-- Consecutive-cover predicate: the listed inclusive ranges tile the
inclusive range s..e from left to right without gaps or overlaps. -/
def covers : ℕ → ℕ → List (ℕ × ℕ) → Prop
  | s, e, [] => e + 1 = s
  | s, e, p :: rest => p.1 = s ∧ p.1 ≤ p.2 ∧ p.2 ≤ e ∧ covers (p.2 + 1) e rest

/-! ## Identity arbitration state (decide, undo, analyze) -/

/-- A fuzzy match awaiting operator review. -/
structure ReviewMatch where
  matchId : String
  accountId : String
  accountName : String
  customerId : String
  customerName : String
  confidence : ℚ
deriving DecidableEq, Repr

/-- An operator decision value. -/
inductive Decision where
  | confirmed
  | rejected
deriving DecidableEq, Repr

/-- One decision log record, remembering the popped queue entry. -/
structure DecisionRec where
  matchId : String
  decision : Decision
  entry : ReviewMatch
deriving DecidableEq, Repr

/-- Arbitration state: the pending FIFO queue and the append-only log. -/
structure IdentityState where
  pendingReview : List ReviewMatch
  decisions : List DecisionRec
deriving DecidableEq, Repr

/-- Modelled from the spec: identity_decide pops the head of the pending
queue and appends a record to the decision log. -/
def decideOp (d : Decision) (s : IdentityState) : Except String IdentityState :=
  match s.pendingReview with
  | [] => .error "no pending review"
  | m :: rest => .ok ⟨rest, s.decisions ++ [⟨m.matchId, d, m⟩]⟩

/-- Modelled from the spec: identity_undo pops the most recent decision
and restores the popped entry to the head of the queue; with an empty log
it returns the no-decisions signal instead of failing. -/
def undoOp (s : IdentityState) : Except String IdentityState :=
  match s.decisions.getLast? with
  | none => .error "no decisions"
  | some d => .ok ⟨d.entry :: s.pendingReview, s.decisions.dropLast⟩

/-- Session statuses observed by the frontend. -/
inductive SessionStatus where
  | created
  | validated
  | identity_review
  | processing
  | completed
  | error
deriving DecidableEq, Repr, Fintype

/-- Session state: status plus arbitration state. -/
structure SessionState where
  status : SessionStatus
  identity : IdentityState
deriving DecidableEq, Repr

/-- Modelled from the spec: analyze fails with identity_review_required
while the needs_review queue is non-empty and review was not explicitly
bypassed, changing no state; otherwise the session moves to processing. -/
def analyzeOp (bypassReview : Bool) (s : SessionState) : Except String SessionState :=
  if s.identity.pendingReview ≠ [] ∧ bypassReview = false then
    .error "identity_review_required"
  else .ok { s with status := .processing }

/-- Run Analysis button gate, IdentityPage.js line 219: disabled while
matches need review and not all are reviewed. -/
def runAnalysisDisabled (needsReviewCount : ℕ) (allReviewed : Bool) : Bool :=
  decide (0 < needsReviewCount) && ! allReviewed

/-! ## Session status ordering (frontend) -/

/-- String form of a session status. -/
def statusString : SessionStatus → String
  | .created => "created"
  | .validated => "validated"
  | .identity_review => "identity_review"
  | .processing => "processing"
  | .completed => "completed"
  | .error => "error"

/-- STATUS_ORDER map of the Layout sidebar (part_001 line 176). -/
def statusOrder (s : String) : Option ℕ :=
  if s = "created" then some 1
  else if s = "validated" then some 2
  else if s = "identity_review" then some 2
  else if s = "processing" then some 3
  else if s = "completed" then some 7
  else if s = "error" then some 7
  else none

/-- The five status values named by the specification. -/
def claimedStatuses : List String :=
  ["created", "identity_review", "processing", "completed", "error"]

/-- Modelled from the spec: forward status transitions of a session. -/
def forwardStep (s t : SessionStatus) : Bool :=
  match s, t with
  | .created, .validated => true
  | .created, .identity_review => true
  | .validated, .identity_review => true
  | .identity_review, .processing => true
  | .processing, .completed => true
  | .processing, .error => true
  | _, _ => false

/-- Modelled from the spec: identity/reset truncates any post-creation
status back to identity_review. -/
def resetStep (s t : SessionStatus) : Bool :=
  (t == .identity_review) && ! (s == .created)

/-- A session status transition: a forward step or an identity/reset. -/
def sessionStep (s t : SessionStatus) : Bool := forwardStep s t || resetStep s t

/-! ## Identity Resolver (three passes and replay) -/

/-- A CRM account row. -/
structure Account where
  accountId : String
  accountName : String
  emailDomain : Option String
deriving DecidableEq, Repr

/-- A billing customer row. -/
structure Customer where
  customerId : String
  customerName : String
  emailDomain : Option String
deriving DecidableEq, Repr

/-- Identity link match types. -/
inductive MatchType where
  | exact
  | fuzzy_confirmed
  | email_signal
  | unmatched
deriving DecidableEq, Repr

/-- One confirmed crosswalk link of the identity spine. -/
structure IdentityLink where
  rsxId : String
  accountId : String
  customerId : Option String
  matchType : MatchType
  confidence : ℚ
deriving DecidableEq, Repr

/-- Fold common Latin diacritics to their base letter. -/
def diacriticFold (c : Char) : Char :=
  if c = 'á' ∨ c = 'à' ∨ c = 'â' ∨ c = 'ä' ∨ c = 'ã' ∨ c = 'å' then 'a'
  else if c = 'é' ∨ c = 'è' ∨ c = 'ê' ∨ c = 'ë' then 'e'
  else if c = 'í' ∨ c = 'ì' ∨ c = 'î' ∨ c = 'ï' then 'i'
  else if c = 'ó' ∨ c = 'ò' ∨ c = 'ô' ∨ c = 'ö' ∨ c = 'õ' ∨ c = 'ø' then 'o'
  else if c = 'ú' ∨ c = 'ù' ∨ c = 'û' ∨ c = 'ü' then 'u'
  else if c = 'ç' then 'c'
  else if c = 'ñ' then 'n'
  else c

/-- The closed set of trailing corporate suffixes dropped by
normalization. -/
def corporateSuffixes : List String :=
  ["inc", "llc", "ltd", "gmbh", "plc", "pty", "co", "corp", "sa", "bv"]

/-- Normalized whitespace tokens of a name: lower-cased, diacritics
folded, whitespace collapsed, a trailing corporate suffix dropped, and
non-alphanumerics stripped inside each token. -/
def normalizeTokensOf (s : String) : List String :=
  let lowered := String.mk (s.toLower.toList.map diacriticFold)
  let ts := (lowered.splitOn " ").filter (fun t => ! (t == ""))
  let ts := match ts.getLast? with
    | some t => if corporateSuffixes.contains t then ts.dropLast else ts
    | none => ts
  (ts.map (fun t => String.mk (t.toList.filter Char.isAlphanum))).filter
    (fun t => ! (t == ""))

/-- Fully normalized form used by the exact pass: normalized tokens glued
together. -/
def normalizeName (s : String) : String := String.join (normalizeTokensOf s)

/-- Levenshtein distance between two strings at unit costs. -/
def editDistance (a b : String) : ℕ :=
  levenshtein Levenshtein.defaultCost a.toList b.toList

/-- Normalized edit-distance similarity in [0, 1]. -/
def editSim (a b : String) : ℚ :=
  let m := max a.length b.length
  if m = 0 then 1 else 1 - (editDistance a b : ℚ) / m

/-- Token-set similarity 2 |A ∩ B| / (|A| + |B|) over deduplicated token
lists. -/
def tokenSetSim (ta tb : List String) : ℚ :=
  let da := ta.dedup
  let db := tb.dedup
  if da.length + db.length = 0 then 0
  else 2 * ((da.filter (fun t => db.contains t)).length : ℚ) / (da.length + db.length)

/-- Modelled from the spec: fuzzy similarity of two names, token-set
similarity with a single-token fallback to edit-distance similarity. -/
def similarity (a b : String) : ℚ :=
  let ta := normalizeTokensOf a
  let tb := normalizeTokensOf b
  if ta.length = 1 ∧ tb.length = 1 then editSim (normalizeName a) (normalizeName b)
  else tokenSetSim ta tb

/-- Exact pass: greedily pair each account with the first remaining
customer of equal normalized name; returns the pairs and both remainders
in input order. -/
def exactPass : List Account → List Customer →
    List (Account × Customer) × List Account × List Customer
  | [], cs => ([], [], cs)
  | a :: as, cs =>
    match cs.find? (fun c => normalizeName c.customerName == normalizeName a.accountName) with
    | some c =>
      let r := exactPass as (cs.erase c)
      ((a, c) :: r.1, r.2.1, r.2.2)
    | none =>
      let r := exactPass as cs
      (r.1, a :: r.2.1, r.2.2)

/-- A scored fuzzy candidate pair. -/
structure FuzzyCand where
  score : ℚ
  account : Account
  customer : Customer
deriving DecidableEq, Repr

/-- Candidate ordering: descending score, ties by lexicographic account
id. -/
def candBefore (p q : FuzzyCand) : Prop :=
  q.score < p.score ∨ (p.score = q.score ∧ p.account.accountId ≤ q.account.accountId)

instance : DecidableRel candBefore := fun p q => by
  unfold candBefore; infer_instance

/-- All remaining pairs scoring at least 0.75. -/
def fuzzyCandidates (as : List Account) (cs : List Customer) : List FuzzyCand :=
  (as.flatMap (fun a => cs.map (fun c =>
    FuzzyCand.mk (similarity a.accountName c.customerName) a c))).filter
    (fun f => decide ((3 : ℚ)/4 ≤ f.score))

/-- Greedy one-to-one assignment over candidates in order. -/
def greedyAssign : List FuzzyCand → List String → List String → List FuzzyCand
  | [], _, _ => []
  | f :: rest, usedA, usedC =>
    if usedA.contains f.account.accountId || usedC.contains f.customer.customerId then
      greedyAssign rest usedA usedC
    else f :: greedyAssign rest (f.account.accountId :: usedA)
      (f.customer.customerId :: usedC)

/-- Email-signal pass: a unique one-to-one domain match between remaining
sides. -/
def emailPass (as : List Account) (cs : List Customer) : List (Account × Customer) :=
  as.filterMap (fun a =>
    match a.emailDomain with
    | none => none
    | some d =>
      match as.filter (fun x => x.emailDomain == some d),
            cs.filter (fun c => c.emailDomain == some d) with
      | [_], [c] => some (a, c)
      | _, _ => none)

/-- Deterministic generated rsx id of an account. -/
def rsxIdOf (accountId : String) : String := "RSX-" ++ accountId

/-- Build a confirmed identity link. -/
def mkLink (mt : MatchType) (conf : ℚ) (a : Account) (c : Option Customer) : IdentityLink :=
  ⟨rsxIdOf a.accountId, a.accountId, c.map (fun x => x.customerId), mt, conf⟩

/-- Review queue entry of a fuzzy candidate. -/
def reviewMatchOf (f : FuzzyCand) : ReviewMatch :=
  ⟨"M-" ++ f.account.accountId ++ "-" ++ f.customer.customerId,
   f.account.accountId, f.account.accountName,
   f.customer.customerId, f.customer.customerName, f.score⟩

/-- Result of the three passes before replaying the decision log. -/
structure ResolveBase where
  autoLinks : List IdentityLink
  reviewQueue : List ReviewMatch
  unmatchedAccounts : List Account
deriving Repr

/-- Modelled from the spec: the three-pass identity resolver (exact,
fuzzy with greedy assignment, email signal); candidates scoring at least
0.95 auto-confirm, candidates in [0.75, 0.95) queue for review ordered by
descending confidence. -/
def resolveBase (accounts : List Account) (customers : List Customer) : ResolveBase :=
  let ex := exactPass accounts customers
  let cands := List.insertionSort candBefore (fuzzyCandidates ex.2.1 ex.2.2)
  let assigned := greedyAssign cands [] []
  let auto := assigned.filter (fun f => decide ((19 : ℚ)/20 ≤ f.score))
  let review := assigned.filter (fun f => decide (f.score < (19 : ℚ)/20))
  let raf := ex.2.1.filter (fun a =>
    ! (assigned.any (fun f => f.account.accountId == a.accountId)))
  let rcf := ex.2.2.filter (fun c =>
    ! (assigned.any (fun f => f.customer.customerId == c.customerId)))
  let em := emailPass raf rcf
  let raf2 := raf.filter (fun a => ! (em.any (fun p => p.1.accountId == a.accountId)))
  { autoLinks := ex.1.map (fun p => mkLink .exact 1 p.1 (some p.2))
      ++ auto.map (fun f => mkLink .fuzzy_confirmed f.score f.account (some f.customer))
      ++ em.map (fun p => mkLink .email_signal (7/10) p.1 (some p.2))
    reviewQueue := review.map reviewMatchOf
    unmatchedAccounts := raf2 }

/-- One replayed decision log entry. -/
structure LogEntry where
  matchId : String
  decision : Decision
deriving DecidableEq, Repr

/-- Replay the decision log over the review queue: confirmed entries join
the spine, rejected entries leave both sides unmatched, entries naming an
unknown match id are ignored. -/
def applyLog : List LogEntry → List ReviewMatch → List IdentityLink →
    List ReviewMatch × List IdentityLink
  | [], q, acc => (q, acc)
  | e :: rest, q, acc =>
    match q.find? (fun m => m.matchId == e.matchId) with
    | none => applyLog rest q acc
    | some m =>
      let q2 := q.filter (fun x => ! (x.matchId == e.matchId))
      match e.decision with
      | .confirmed => applyLog rest q2
          (acc ++ [⟨rsxIdOf m.accountId, m.accountId, some m.customerId,
            .fuzzy_confirmed, m.confidence⟩])
      | .rejected => applyLog rest q2 acc

/-- Spine ordering: ascending account id. -/
def linkByAccountId (x y : IdentityLink) : Prop := x.accountId ≤ y.accountId

instance : DecidableRel linkByAccountId := fun x y => by
  unfold linkByAccountId; infer_instance

instance : IsTotal IdentityLink linkByAccountId :=
  ⟨fun x y => le_total x.accountId y.accountId⟩

instance : IsTrans IdentityLink linkByAccountId :=
  ⟨fun _ _ _ h1 h2 => le_trans h1 h2⟩

/-- Full resolve result. -/
structure ResolveResult where
  spine : List IdentityLink
  pendingReview : List ReviewMatch
  unmatchedAccounts : List Account
  decisionLog : List LogEntry
deriving Repr

/-- Modelled from the spec: resolve is the pure replay function of the
inputs and the decision log, emitting the spine sorted by account id. -/
def resolve (accounts : List Account) (customers : List Customer)
    (log : List LogEntry) : ResolveResult :=
  let base := resolveBase accounts customers
  let qc := applyLog log base.reviewQueue []
  { spine := List.insertionSort linkByAccountId (base.autoLinks ++ qc.2)
    pendingReview := qc.1
    unmatchedAccounts := base.unmatchedAccounts
    decisionLog := log }

/-! ## Concrete inputs used by witnesses -/

/-- Seed scenario S2: MRR 3000 from Feb 10 to Nov 20 of a leap year. -/
def s2Sub : Subscription := ⟨"SUB-S2", "ACC-1", ⟨1, 10⟩, ⟨10, 20⟩, 300000, []⟩

/-- Reporting period start for the seed scenarios: January 1. -/
def rpStart : DateRec := ⟨0, 1⟩

/-- Reporting period end for the seed scenarios: December 31. -/
def rpEnd : DateRec := ⟨11, 31⟩

/-- First generated segment of scenario S2 (February, prorated). -/
def s2FirstSeg : Segment := (buildSegments s2Sub rpStart rpEnd).headI

/-- Seed scenario S3: a subscription spanning January to March. -/
def s3Sub : Subscription := ⟨"SUB-S3", "ACC-3", ⟨0, 1⟩, ⟨2, 31⟩, 200000, []⟩

/-- Segments of scenario S3. -/
def s3Segs : List Segment := buildSegments s3Sub ⟨0, 1⟩ ⟨2, 31⟩

/-- Seed scenario S3 invoice: 6000 covering Jan 15 to Mar 14. -/
def s3Invoice : Invoice := ⟨"INV-1", "CUST-1", ⟨0, 15⟩, ⟨2, 14⟩, 600000, .unpaid⟩

/-- Seed scenario S5 totals: invoiced 1000, standalone credit 200,
expected 1000, fully collected. -/
def s5Totals : SegTotals := ⟨true, 100000, 100000, 20000, 100000⟩

/-- A demo pending review match. -/
def demoMatch : ReviewMatch := ⟨"m1", "a1", "Acme", "c1", "Acme Inc", 4/5⟩

/-- A demo decision record over the demo match. -/
def demoDecision : DecisionRec := ⟨"m1", .confirmed, demoMatch⟩

/-- A demo session stuck in identity review with one pending match. -/
def demoSession : SessionState := ⟨.identity_review, ⟨[demoMatch], []⟩⟩

/-! ## Helper lemmas: calendar -/

theorem daysInMonth_pos (mi : ℕ) : 0 < daysInMonth mi := by
  unfold daysInMonth
  split_ifs <;> omega

theorem daysBefore_mono {m n : ℕ} (h : m ≤ n) : daysBefore m ≤ daysBefore n := by
  induction n, h using Nat.le_induction with
  | base => exact le_rfl
  | succ n _ ih =>
    have := daysInMonth_pos n
    simp only [daysBefore]
    omega

theorem monthFirst_le_monthLast (mi : ℕ) : monthFirst mi ≤ monthLast mi := by
  have := daysInMonth_pos mi
  simp only [monthFirst, monthLast, daysBefore]
  omega

theorem monthLast_succ (mi : ℕ) : monthLast mi + 1 = monthFirst (mi + 1) := by
  simp only [monthFirst, monthLast]

theorem monthLast_lt_monthFirst {m n : ℕ} (h : m < n) : monthLast m < monthFirst n := by
  have : daysBefore (m + 1) ≤ daysBefore n := daysBefore_mono (by omega)
  simp only [monthFirst, monthLast]
  omega

theorem monthFirst_mono {m n : ℕ} (h : m ≤ n) : monthFirst m ≤ monthFirst n := by
  have := daysBefore_mono h
  simp only [monthFirst]
  omega

theorem monthLast_mono {m n : ℕ} (h : m ≤ n) : monthLast m ≤ monthLast n := by
  have := daysBefore_mono (show m + 1 ≤ n + 1 by omega)
  simp only [monthLast]
  omega

theorem absOf_mem_month {d : DateRec} (h : validDate d) :
    monthFirst d.mi ≤ absOf d ∧ absOf d ≤ monthLast d.mi := by
  obtain ⟨h1, h2⟩ := h
  simp only [monthFirst, monthLast, absOf, daysBefore]
  omega

/-! ## Helper lemmas: consecutive interval covers -/

theorem covers_le {s e : ℕ} {l : List (ℕ × ℕ)} (h : covers s e l) : s ≤ e + 1 := by
  induction l generalizing s with
  | nil => simp only [covers] at h; omega
  | cons p rest ih =>
    simp only [covers] at h
    obtain ⟨h1, h2, h3, _⟩ := h
    omega

theorem covers_bounds {s e : ℕ} {l : List (ℕ × ℕ)} (h : covers s e l) :
    ∀ p ∈ l, s ≤ p.1 ∧ p.1 ≤ p.2 ∧ p.2 ≤ e := by
  induction l generalizing s with
  | nil => intro p hp; simp at hp
  | cons q rest ih =>
    simp only [covers] at h
    obtain ⟨h1, h2, h3, h4⟩ := h
    intro p hp
    rcases List.mem_cons.mp hp with rfl | hp
    · omega
    · have := ih h4 p hp
      omega

theorem covers_union {s e : ℕ} {l : List (ℕ × ℕ)} (h : covers s e l) :
    (l.map (fun p => Finset.Icc p.1 p.2)).foldr (· ∪ ·) ∅ = Finset.Icc s e := by
  induction l generalizing s with
  | nil =>
    simp only [covers] at h
    rw [Finset.Icc_eq_empty (by omega)]
    rfl
  | cons q rest ih =>
    simp only [covers] at h
    obtain ⟨h1, h2, h3, h4⟩ := h
    simp only [List.map_cons, List.foldr_cons]
    rw [ih h4]
    ext x
    simp only [Finset.mem_union, Finset.mem_Icc]
    omega

theorem covers_pairwise {s e : ℕ} {l : List (ℕ × ℕ)} (h : covers s e l) :
    l.Pairwise (fun p q => Disjoint (Finset.Icc p.1 p.2) (Finset.Icc q.1 q.2)) := by
  induction l generalizing s with
  | nil => exact List.Pairwise.nil
  | cons q rest ih =>
    simp only [covers] at h
    obtain ⟨h1, h2, h3, h4⟩ := h
    refine List.Pairwise.cons ?_ (ih h4)
    intro p hp
    have hb := covers_bounds h4 p hp
    rw [Finset.disjoint_left]
    intro x hx hx2
    simp only [Finset.mem_Icc] at hx hx2
    omega

theorem covers_append {s m e : ℕ} {l1 l2 : List (ℕ × ℕ)}
    (h1 : covers s m l1) (h2 : covers (m + 1) e l2) (hme : m ≤ e) :
    covers s e (l1 ++ l2) := by
  induction l1 generalizing s with
  | nil =>
    simp only [covers] at h1
    rw [List.nil_append, ← h1]
    exact h2
  | cons p rest ih =>
    simp only [covers] at h1
    obtain ⟨hp1, hp2, hp3, hp4⟩ := h1
    exact ⟨hp1, hp2, by omega, ih hp4⟩

theorem covers_flatMap {s e : ℕ} {l : List (ℕ × ℕ)} {f : ℕ × ℕ → List (ℕ × ℕ)}
    (h : covers s e l) (hf : ∀ p ∈ l, covers p.1 p.2 (f p)) :
    covers s e (l.flatMap f) := by
  induction l generalizing s with
  | nil => simpa [List.flatMap] using h
  | cons p rest ih =>
    simp only [covers] at h
    obtain ⟨h1, h2, h3, h4⟩ := h
    rw [List.flatMap_cons]
    have hcov : covers s p.2 (f p) := by
      have := hf p (List.mem_cons_self p rest)
      rwa [h1] at this
    exact covers_append hcov
      (ih h4 (fun q hq => hf q (List.mem_cons_of_mem _ hq))) h3

theorem splitAtCuts_covers : ∀ (cuts : List ℕ) (a b : ℕ), a ≤ b →
    List.Sorted (· < ·) cuts → (∀ c ∈ cuts, a < c ∧ c ≤ b) →
    covers a b (splitAtCuts a b cuts)
  | [], a, b, hab, _, _ => by
    simp only [splitAtCuts]
    exact ⟨rfl, hab, le_rfl, rfl⟩
  | c :: rest, a, b, hab, hs, hin => by
    have hc := hin c (List.mem_cons_self c rest)
    have hsr := List.sorted_cons.mp hs
    simp only [splitAtCuts]
    refine ⟨rfl, by omega, by omega, ?_⟩
    have hc1 : c - 1 + 1 = c := by omega
    rw [hc1]
    exact splitAtCuts_covers rest c b (by omega) hsr.2
      (fun d hd => ⟨hsr.1 d hd, (hin d (List.mem_cons_of_mem _ hd)).2⟩)

theorem monthTilesFrom_covers : ∀ (n mi s e : ℕ),
    s ≤ monthLast mi →
    monthFirst (mi + n) ≤ e → e ≤ monthLast (mi + n) →
    max (monthFirst mi) s ≤ e →
    covers (max (monthFirst mi) s) e
      ((monthTilesFrom (n + 1) mi s e).map (fun t => t.2))
  | 0, mi, s, e, hs, he1, he2, hse => by
    simp only [Nat.add_zero] at he1 he2
    simp only [monthTilesFrom, List.map_cons, List.map_nil]
    have h1 := monthFirst_le_monthLast mi
    have hp12 : max (monthFirst mi) s ≤ min (monthLast mi) e := le_min (max_le h1 hs) hse
    have hlast : min (monthLast mi) e + 1 = e + 1 := by rw [min_eq_right he2]
    exact ⟨rfl, hp12, min_le_right _ _, hlast.symm⟩
  | n + 1, mi, s, e, hs, he1, he2, hse => by
    have hfm : monthLast mi < monthFirst (mi + (n + 1)) :=
      monthLast_lt_monthFirst (by omega)
    have hmin : min (monthLast mi) e = monthLast mi := by omega
    have hfl := monthFirst_le_monthLast mi
    have hidx : mi + 1 + n = mi + (n + 1) := by omega
    have ih := monthTilesFrom_covers n (mi + 1) s e
      (le_trans hs (monthLast_mono (by omega)))
      (by rw [hidx]; exact he1) (by rw [hidx]; exact he2)
      (by
        have h2 : monthFirst (mi + 1) ≤ monthFirst (mi + (n + 1)) :=
          monthFirst_mono (by omega)
        have h3 := monthLast_succ mi
        omega)
    have hmax : max (monthFirst (mi + 1)) s = monthFirst (mi + 1) := by
      have h3 := monthLast_succ mi
      omega
    rw [hmax] at ih
    simp only [monthTilesFrom, List.map_cons]
    refine ⟨rfl, by omega, by omega, ?_⟩
    show covers (min (monthLast mi) e + 1) e
      ((monthTilesFrom (n + 1) (mi + 1) s e).map (fun t => t.2))
    rw [hmin, monthLast_succ mi]
    exact ih

theorem map_fst_snd_id (l : List (ℕ × ℕ)) : l.map (fun p => (p.1, p.2)) = l := by
  simp

theorem pairwise_proj {l : List Segment}
    (h : (l.map (fun g => (g.segStart, g.segEnd))).Pairwise
      (fun p q => Disjoint (Finset.Icc p.1 p.2) (Finset.Icc q.1 q.2))) :
    l.Pairwise (fun g1 g2 => Disjoint (Finset.Icc g1.segStart g1.segEnd)
      (Finset.Icc g2.segStart g2.segEnd)) := by
  induction l with
  | nil => exact List.Pairwise.nil
  | cons a t ih =>
    rcases List.pairwise_cons.mp h with ⟨h1, h2⟩
    refine List.Pairwise.cons ?_ (ih h2)
    intro b hb
    exact h1 _ (List.mem_map_of_mem _ hb)

/-! ## Helper lemmas: integer rounding matches rational rounding -/

theorem half_lt_iff {r : ℤ} {d : ℕ} (hd : 0 < d) :
    ((r : ℚ) / (d : ℚ) < 1/2) ↔ (2 * r < (d : ℤ)) := by
  have hd0 : (0 : ℚ) < (d : ℚ) := by exact_mod_cast hd
  rw [div_lt_div_iff₀ hd0 (by norm_num : (0 : ℚ) < 2)]
  constructor
  · intro h
    have h2 : ((2 * r : ℤ) : ℚ) < ((d : ℤ) : ℚ) := by push_cast; push_cast at h; linarith
    exact_mod_cast h2
  · intro h
    have h2 : ((2 * r : ℤ) : ℚ) < ((d : ℤ) : ℚ) := by exact_mod_cast h
    push_cast at h2
    linarith

theorem lt_half_iff {r : ℤ} {d : ℕ} (hd : 0 < d) :
    ((1 : ℚ)/2 < (r : ℚ) / (d : ℚ)) ↔ ((d : ℤ) < 2 * r) := by
  have hd0 : (0 : ℚ) < (d : ℚ) := by exact_mod_cast hd
  rw [div_lt_div_iff₀ (by norm_num : (0 : ℚ) < 2) hd0]
  constructor
  · intro h
    have h2 : ((d : ℤ) : ℚ) < ((2 * r : ℤ) : ℚ) := by push_cast; push_cast at h; linarith
    exact_mod_cast h2
  · intro h
    have h2 : ((d : ℤ) : ℚ) < ((2 * r : ℤ) : ℚ) := by exact_mod_cast h
    push_cast at h2
    linarith

theorem roundHalfEvenDiv_eq (n : ℤ) (d : ℕ) (hd : 0 < d) :
    roundHalfEvenDiv n d = roundHalfEven ((n : ℚ) / (d : ℚ)) := by
  have hd0 : (0 : ℚ) < (d : ℚ) := by exact_mod_cast hd
  have hfl : ⌊((n : ℚ) / (d : ℚ))⌋ = n / (d : ℤ) := Rat.floor_intCast_div_natCast n d
  have hres : (n : ℚ) / (d : ℚ) - ((n / (d : ℤ) : ℤ) : ℚ) =
      ((n - n / (d : ℤ) * (d : ℤ) : ℤ) : ℚ) / (d : ℚ) := by
    field_simp
    ring
  simp only [roundHalfEven, roundHalfEvenDiv, hfl, hres, half_lt_iff hd, lt_half_iff hd]

theorem roundNearestDiv_eq (n : ℤ) (d : ℕ) (hd : 0 < d) :
    roundNearestDiv n d = roundNearest ((n : ℚ) / (d : ℚ)) := by
  have hd0 : (0 : ℚ) < (d : ℚ) := by exact_mod_cast hd
  have hx : (n : ℚ) / (d : ℚ) + 1/2 = ((2 * n + d : ℤ) : ℚ) / ((2 * d : ℕ) : ℚ) := by
    push_cast
    field_simp
    ring
  simp only [roundNearest, roundNearestDiv]
  rw [hx, Rat.floor_intCast_div_natCast]
  congr 1

theorem roundHalfEvenDiv_formula (a : ℤ) (b d : ℕ) (hd : 0 < d) :
    roundHalfEvenDiv (a * (b : ℤ)) d = roundHalfEven ((a * b : ℚ) / (d : ℚ)) := by
  rw [roundHalfEvenDiv_eq _ _ hd]
  congr 1
  push_cast
  ring

theorem roundNearestDiv_formula (a : ℤ) (b d : ℕ) (hd : 0 < d) :
    roundNearestDiv (a * (b : ℤ)) d = roundNearest ((a * b : ℚ) / (d : ℚ)) := by
  rw [roundNearestDiv_eq _ _ hd]
  congr 1
  push_cast
  ring

/-! ## Helper lemmas: proportional shares -/

theorem propShares_length (amount : ℤ) (total : ℕ) (ds : List ℕ) :
    (propShares amount total ds).length = ds.length := by
  cases ds with
  | nil => rfl
  | cons d rest =>
    simp only [propShares]
    rw [List.length_append, List.length_map, List.length_dropLast]
    simp only [List.length_cons, List.length_nil]
    omega

theorem propShares_sum (amount : ℤ) (total : ℕ) {ds : List ℕ} (h : ds ≠ []) :
    (propShares amount total ds).sum = amount := by
  cases ds with
  | nil => exact absurd rfl h
  | cons d rest =>
    simp [propShares]

theorem propShares_front (amount : ℤ) (total : ℕ) {ds : List ℕ} (h : ds ≠ []) :
    (propShares amount total ds).dropLast =
      ds.dropLast.map (fun (d : ℕ) => roundNearestDiv (amount * (d : ℤ)) total) := by
  cases ds with
  | nil => exact absurd rfl h
  | cons d rest =>
    simp only [propShares]
    exact List.dropLast_concat ..

theorem propShares_front_formula (amount : ℤ) (total : ℕ) {ds : List ℕ}
    (h : ds ≠ []) (htot : 0 < total) :
    (propShares amount total ds).dropLast =
      ds.dropLast.map (fun (d : ℕ) => roundNearest ((amount * d : ℚ) / (total : ℚ))) := by
  rw [propShares_front amount total h]
  exact List.map_congr_left (fun d _ => roundNearestDiv_formula amount d total htot)

theorem buildSegments_empty (sub : Subscription) (ps pe : DateRec)
    (hc : min (absOf sub.endDate) (absOf pe) < max (absOf sub.startDate) (absOf ps)) :
    buildSegments sub ps pe = [] := by
  simp only [buildSegments]
  split_ifs <;> first | rfl | (exfalso; omega)

theorem tiles_covers (sub : Subscription) (cs ce : DateRec)
    (hvc : validDate cs) (hvd : validDate ce)
    (hramp : List.Sorted (· < ·) (sub.ramp.map (fun e => absOf e.effectiveDate)))
    (hle : absOf cs ≤ absOf ce) :
    covers (absOf cs) (absOf ce)
      (((monthTilesFrom (ce.mi + 1 - cs.mi) cs.mi (absOf cs) (absOf ce)).flatMap
        (fun t => (splitAtCuts t.2.1 t.2.2 (rampCuts sub t.2.1 t.2.2)).map
          (fun p => mkSegment sub t.1 p.1 p.2))).map (fun g => (g.segStart, g.segEnd))) := by
  have hcsm := absOf_mem_month hvc
  have hcem := absOf_mem_month hvd
  have hmile : cs.mi ≤ ce.mi := by
    by_contra hgt
    have := monthLast_lt_monthFirst (show ce.mi < cs.mi by omega)
    omega
  have hidx : cs.mi + (ce.mi - cs.mi) = ce.mi := by omega
  have htiles := monthTilesFrom_covers (ce.mi - cs.mi) cs.mi (absOf cs) (absOf ce)
    hcsm.2 (by rw [hidx]; exact hcem.1) (by rw [hidx]; exact hcem.2)
    (by rw [max_eq_right hcsm.1]; exact hle)
  rw [max_eq_right hcsm.1] at htiles
  have hn : ce.mi + 1 - cs.mi = (ce.mi - cs.mi) + 1 := by omega
  rw [hn]
  have hmaps : ((monthTilesFrom ((ce.mi - cs.mi) + 1) cs.mi (absOf cs) (absOf ce)).flatMap
      (fun t => (splitAtCuts t.2.1 t.2.2 (rampCuts sub t.2.1 t.2.2)).map
        (fun p => mkSegment sub t.1 p.1 p.2))).map (fun g => (g.segStart, g.segEnd)) =
      ((monthTilesFrom ((ce.mi - cs.mi) + 1) cs.mi (absOf cs) (absOf ce)).map
        (fun t => t.2)).flatMap
        (fun q => splitAtCuts q.1 q.2 (rampCuts sub q.1 q.2)) := by
    rw [List.map_flatMap, List.flatMap_map]
    congr 1
    funext t
    rw [List.map_map]
    have hcomp : ((fun g : Segment => (g.segStart, g.segEnd)) ∘
        (fun p : ℕ × ℕ => mkSegment sub t.1 p.1 p.2)) =
        (fun p : ℕ × ℕ => (p.1, p.2)) := by
      funext p; rfl
    rw [hcomp, map_fst_snd_id]
  rw [hmaps]
  apply covers_flatMap htiles
  intro q hq
  have hb := covers_bounds htiles q hq
  apply splitAtCuts_covers _ _ _ hb.2.1
  · exact List.Pairwise.filter _ hramp
  · intro c hc
    have hmemf := List.mem_filter.mp hc
    have := hmemf.2
    simp only [Bool.and_eq_true, decide_eq_true_eq] at this
    exact this

/-! ## Theorems for claims C5 and C10 -/

/-- C5 counterexample: the smart-upload validation gate accepts a session
holding only the four tables accounts, customers, subscriptions and
invoices, so validation does not require all six tables: payments is one
of the six tables yet absent from the accepted store. -/
theorem c5_claim_counterexample :
    canValidate ["accounts", "customers", "subscriptions", "invoices"] = true ∧
    "payments" ∈ sixTables ∧
    (["accounts", "customers", "subscriptions", "invoices"] : List String).contains
      "payments" = false := by
  decide

/-- C5 (amended): the engine recognizes exactly the six CSV tables, but
smart-upload validation requires only accounts, customers, subscriptions
and invoices to be present (plus a nonempty store); the legacy upload page
requires five tables, leaving credit_notes optional. -/
theorem c5_upload_validation_requirements :
    (∀ storedTypes : List String,
      canValidate storedTypes = true ↔
        (storedTypes ≠ [] ∧ ∀ t ∈ requiredTypes, storedTypes.contains t = true)) ∧
    legacyFileTypes.map Prod.fst = sixTables ∧
    (legacyFileTypes.filter (fun f => f.2)).map Prod.fst =
      ["accounts", "customers", "subscriptions", "invoices", "payments"] := by
  refine ⟨fun storedTypes => ?_, by decide, by decide⟩
  simp only [canValidate, missingRequired, Bool.and_eq_true, decide_eq_true_eq,
    List.length_eq_zero, List.filter_eq_nil_iff, Bool.not_eq_true, Bool.not_eq_true',
    List.length_pos, ne_eq]
  constructor
  · rintro ⟨h1, h2⟩
    exact ⟨h1, fun t ht => by simpa using h2 t ht⟩
  · rintro ⟨h1, h2⟩
    exact ⟨h1, fun t ht => by simpa using h2 t ht⟩

/-- C5 witness: a store holding all six tables passes the amended gate. -/
theorem c5_witness :
    canValidate ["accounts", "customers", "subscriptions", "invoices",
      "payments", "credit_notes"] = true :=
  (c5_upload_validation_requirements.1 _).mpr (by decide)

/-- C10: the badge renderer is total: every input, including the null and
undefined cases (modelled as none) and any unrecognized string, yields a
badge, and every value outside the six defined statuses renders as the
UNKNOWN badge; defined statuses render their own map entry. -/
theorem c10_variance_badge_total :
    (∀ t : Option String, ∃ label cls, varianceBadge t = (label, cls)) ∧
    varianceBadge none = unknownBadge ∧
    (∀ k : String, k ∉ definedStatuses → varianceBadge (some k) = unknownBadge) ∧
    (∀ k ∈ definedStatuses,
      ∃ e, varianceBadgeMap.lookup k = some e ∧ varianceBadge (some k) = e) := by
  refine ⟨fun t => ⟨(varianceBadge t).1, (varianceBadge t).2, rfl⟩, rfl, ?_, ?_⟩
  · intro k hk
    simp only [definedStatuses, List.mem_cons, List.not_mem_nil, or_false, not_or] at hk
    obtain ⟨h1, h2, h3, h4, h5, h6⟩ := hk
    have e1 : (k == "CLEAN") = false := beq_eq_false_iff_ne.mpr h1
    have e2 : (k == "MISSING_INVOICE") = false := beq_eq_false_iff_ne.mpr h2
    have e3 : (k == "UNDER_BILLED") = false := beq_eq_false_iff_ne.mpr h3
    have e4 : (k == "OVER_BILLED") = false := beq_eq_false_iff_ne.mpr h4
    have e5 : (k == "UNPAID_AR") = false := beq_eq_false_iff_ne.mpr h5
    have e6 : (k == "UNKNOWN") = false := beq_eq_false_iff_ne.mpr h6
    simp [varianceBadge, varianceBadgeMap, List.lookup, e1, e2, e3, e4, e5, e6, unknownBadge]
  · intro k hk
    fin_cases hk <;> exact ⟨_, rfl, rfl⟩

/-- C10 witness: an unrecognized status string renders the UNKNOWN badge. -/
theorem c10_witness :
    varianceBadge (some "bogus_status") = unknownBadge ∧
    varianceBadge none = unknownBadge :=
  ⟨c10_variance_badge_total.2.2.1 "bogus_status" (by decide),
   c10_variance_badge_total.2.1⟩

/-! ## Theorems for claims C1 to C4 -/

/-- C1: for a non-void invoice, no overlapping segment yields an
ALLOCATION_AMBIGUOUS exclusion instead of an allocation; whenever the
invoice is allocated the allocated amounts sum exactly to the invoice
amount (hence within half a cent); a proportional allocation carries
exactly the proportional shares over overlap day counts, whose non-final
entries are the rounded amounts invoice.amount × overlap_days_i / Σ
overlap_days and whose final entry absorbs the rounding residue. -/
theorem c1_invoice_allocation (inv : Invoice) (segs : List Segment)
    (hst : inv.status ≠ .voided) :
    (overlappingSegs inv segs = [] →
      allocateInvoice inv segs =
        .excluded ⟨"invoice", inv.invoiceId, "ALLOCATION_AMBIGUOUS", "no matching segment"⟩) ∧
    (∀ m allocs, allocateInvoice inv segs = .allocated m allocs →
      (allocs.map Prod.snd).sum = inv.amountCents) ∧
    (∀ allocs, allocateInvoice inv segs = .allocated .proportional allocs →
      allocs.map Prod.snd =
        propShares inv.amountCents
          ((overlappingSegs inv segs).map (fun s =>
            overlapDays s.segStart s.segEnd (absOf inv.periodStart) (absOf inv.periodEnd))).sum
          ((overlappingSegs inv segs).map (fun s =>
            overlapDays s.segStart s.segEnd (absOf inv.periodStart) (absOf inv.periodEnd)))) ∧
    (∀ (amount : ℤ) (total : ℕ) (ds : List ℕ), ds ≠ [] → 0 < total →
      (propShares amount total ds).sum = amount ∧
      (propShares amount total ds).dropLast =
        ds.dropLast.map (fun (d : ℕ) =>
          roundNearest ((amount * d : ℚ) / (total : ℚ)))) := by
  refine ⟨?_, ?_, ?_, fun amount total ds h htot =>
    ⟨propShares_sum amount total h, propShares_front_formula amount total h htot⟩⟩
  · intro hov
    simp only [allocateInvoice, if_neg hst, hov]
  · intro m allocs h
    rcases hov : overlappingSegs inv segs with _ | ⟨s1, tail⟩
    · simp only [allocateInvoice, if_neg hst, hov] at h
      exact AllocResult.noConfusion h
    · rcases tail with _ | ⟨s2, rest⟩
      · simp only [allocateInvoice, if_neg hst, hov, AllocResult.allocated.injEq] at h
        obtain ⟨-, rfl⟩ := h
        simp
      · simp only [allocateInvoice, if_neg hst, hov, AllocResult.allocated.injEq] at h
        obtain ⟨-, rfl⟩ := h
        rw [List.map_snd_zip]
        · exact propShares_sum _ _ (by simp)
        · rw [propShares_length, List.length_map]
  · intro allocs h
    rcases hov : overlappingSegs inv segs with _ | ⟨s1, tail⟩
    · simp only [allocateInvoice, if_neg hst, hov] at h
      exact AllocResult.noConfusion h
    · rcases tail with _ | ⟨s2, rest⟩
      · simp only [allocateInvoice, if_neg hst, hov, AllocResult.allocated.injEq] at h
        exact absurd h.1 (by decide)
      · simp only [allocateInvoice, if_neg hst, hov, AllocResult.allocated.injEq] at h
        obtain ⟨-, rfl⟩ := h
        rw [List.map_snd_zip]
        rw [propShares_length, List.length_map]

/-- C1 witness: seed scenario S3, a 6000 invoice over three segments with
overlap day counts 17, 29 and 14, allocated 1700 / 2900 / 1400 with the
final segment absorbing the residue; the total equals the invoice amount
by the allocation theorem. -/
theorem c1_witness :
    allocateInvoice s3Invoice s3Segs =
      .allocated .proportional
        (s3Segs.zip ([170000, 290000, 140000] : List ℤ)) ∧
    ((s3Segs.zip ([170000, 290000, 140000] : List ℤ)).map Prod.snd).sum =
      s3Invoice.amountCents :=
  ⟨by decide,
   (c1_invoice_allocation s3Invoice s3Segs (by decide)).2.1 .proportional
     (s3Segs.zip ([170000, 290000, 140000] : List ℤ)) (by decide)⟩

/-- C2: every segment produced by the Lifecycle Builder has
expected_amount equal to mrr_effective × days_active / total_days rounded
to cents with banker rounding (round half even), where total_days is the
day count of the segment month and days_active the inclusive day count of
the segment range. -/
theorem c2_expected_amount (sub : Subscription) (ps pe : DateRec) (seg : Segment)
    (h : seg ∈ buildSegments sub ps pe) :
    seg.expectedCents =
      roundHalfEven ((seg.mrrEffCents * seg.daysActive : ℚ) / seg.totalDays) ∧
    seg.totalDays = daysInMonth seg.periodMonth ∧
    seg.daysActive = seg.segEnd + 1 - seg.segStart := by
  simp only [buildSegments] at h
  split_ifs at h <;>
    first
      | exact absurd h (List.not_mem_nil seg)
      | (rcases List.mem_flatMap.mp h with ⟨t, ht, hseg⟩
         rcases List.mem_map.mp hseg with ⟨p, hp, rfl⟩
         exact ⟨roundHalfEvenDiv_formula _ _ _ (daysInMonth_pos _), rfl, rfl⟩)

/-- C2 witness: seed scenario S2, the February segment of a 3000 MRR
subscription active Feb 10 to Nov 20 of a leap year; the segment has 20
active days of 29 and expected 2068.97, satisfying the banker-rounded
proration formula by the lifecycle theorem. -/
theorem c2_witness :
    s2FirstSeg ∈ buildSegments s2Sub rpStart rpEnd ∧
    s2FirstSeg.expectedCents =
      roundHalfEven ((s2FirstSeg.mrrEffCents * s2FirstSeg.daysActive : ℚ) /
        s2FirstSeg.totalDays) ∧
    s2FirstSeg.expectedCents = 206897 ∧
    s2FirstSeg.daysActive = 20 ∧ s2FirstSeg.totalDays = 29 :=
  ⟨by decide, (c2_expected_amount s2Sub rpStart rpEnd s2FirstSeg (by decide)).1,
   by decide, by decide, by decide⟩

/-- C3: variance is effective_invoiced minus expected with
effective_invoiced the invoiced total net of credit notes, and the status
is the decision table evaluated top to bottom at tolerance 100 cents:
UNKNOWN without customer linkage, MISSING_INVOICE when nothing effective
was invoiced yet more than the tolerance was expected, CLEAN and
UNPAID_AR split by collections when the variance is within tolerance,
UNDER_BILLED below minus tolerance and OVER_BILLED above tolerance. -/
theorem c3_variance_classification (t : SegTotals) :
    varianceCents t = effectiveInvoiced t - t.expectedCents ∧
    effectiveInvoiced t = t.invoicedCents - t.creditNotesCents ∧
    (t.hasCustomer = false → classify t = .UNKNOWN) ∧
    (t.hasCustomer = true → effectiveInvoiced t = 0 →
      toleranceCents < t.expectedCents → classify t = .MISSING_INVOICE) ∧
    (t.hasCustomer = true →
      ¬(effectiveInvoiced t = 0 ∧ toleranceCents < t.expectedCents) →
      |varianceCents t| ≤ toleranceCents →
      effectiveInvoiced t - toleranceCents ≤ t.collectedCents →
      classify t = .CLEAN) ∧
    (t.hasCustomer = true →
      ¬(effectiveInvoiced t = 0 ∧ toleranceCents < t.expectedCents) →
      |varianceCents t| ≤ toleranceCents →
      t.collectedCents < effectiveInvoiced t - toleranceCents →
      classify t = .UNPAID_AR) ∧
    (t.hasCustomer = true →
      ¬(effectiveInvoiced t = 0 ∧ toleranceCents < t.expectedCents) →
      varianceCents t < -toleranceCents → classify t = .UNDER_BILLED) ∧
    (t.hasCustomer = true →
      ¬(effectiveInvoiced t = 0 ∧ toleranceCents < t.expectedCents) →
      toleranceCents < varianceCents t → classify t = .OVER_BILLED) := by
  refine ⟨rfl, rfl, ?_, ?_, ?_, ?_, ?_, ?_⟩
  · intro h
    unfold classify
    rw [if_pos (by simp [h])]
  · intro h he hexp
    unfold classify
    rw [if_neg (by simp [h]), if_pos ⟨he, hexp⟩]
  · intro h hn habs hcol
    unfold classify
    rw [if_neg (by simp [h]), if_neg hn, if_pos ⟨habs, hcol⟩]
  · intro h hn habs hcol
    unfold classify
    rw [if_neg (by simp [h]), if_neg hn,
      if_neg (by rintro ⟨-, hc⟩; omega), if_pos ⟨habs, hcol⟩]
  · intro h hn hv
    have habs : ¬ |varianceCents t| ≤ toleranceCents := by
      rw [abs_le]
      rintro ⟨h1, -⟩
      omega
    unfold classify
    rw [if_neg (by simp [h]), if_neg hn,
      if_neg (by rintro ⟨hc, -⟩; exact habs hc),
      if_neg (by rintro ⟨hc, -⟩; exact habs hc), if_pos hv]
  · intro h hn hv
    have habs : ¬ |varianceCents t| ≤ toleranceCents := by
      rw [abs_le]
      rintro ⟨-, h2⟩
      omega
    unfold classify
    rw [if_neg (by simp [h]), if_neg hn,
      if_neg (by rintro ⟨hc, -⟩; exact habs hc),
      if_neg (by rintro ⟨hc, -⟩; exact habs hc),
      if_neg (by have htol : toleranceCents = 100 := rfl; omega), if_pos hv]

/-- C3 witness: seed scenario S5, invoiced 1000 with a 200 credit note
against expected 1000, fully collected: effective invoiced 800, variance
minus 200, classified UNDER_BILLED by the decision table theorem. -/
theorem c3_witness : classify s5Totals = VStatus.UNDER_BILLED :=
  (c3_variance_classification s5Totals).2.2.2.2.2.2.1 rfl (by decide) (by decide)

/-- C4: for a valid subscription with an ordered ramp schedule, the day
ranges of its generated segments are pairwise disjoint and their union is
exactly the intersection of the inclusive subscription interval with the
reporting period. -/
theorem c4_segment_tiling (sub : Subscription) (ps pe : DateRec)
    (hvs : validDate sub.startDate) (hve : validDate sub.endDate)
    (hvp : validDate ps) (hvq : validDate pe)
    (hramp : List.Sorted (· < ·) (sub.ramp.map (fun e => absOf e.effectiveDate)))
    (hmrr : 0 ≤ sub.mrrCents) (hse : absOf sub.startDate ≤ absOf sub.endDate) :
    ((buildSegments sub ps pe).map (fun g => Finset.Icc g.segStart g.segEnd)).foldr
        (· ∪ ·) ∅ =
      Finset.Icc (max (absOf sub.startDate) (absOf ps))
        (min (absOf sub.endDate) (absOf pe)) ∧
    (buildSegments sub ps pe).Pairwise
      (fun g1 g2 => Disjoint (Finset.Icc g1.segStart g1.segEnd)
        (Finset.Icc g2.segStart g2.segEnd)) := by
  rcases le_or_lt (max (absOf sub.startDate) (absOf ps))
      (min (absOf sub.endDate) (absOf pe)) with hle | hlt
  · have hcs : absOf (if absOf ps ≤ absOf sub.startDate then sub.startDate else ps) =
        max (absOf sub.startDate) (absOf ps) := by
      split_ifs with h <;> omega
    have hce : absOf (if absOf sub.endDate ≤ absOf pe then sub.endDate else pe) =
        min (absOf sub.endDate) (absOf pe) := by
      split_ifs with h <;> omega
    have hvcs : validDate (if absOf ps ≤ absOf sub.startDate then sub.startDate else ps) := by
      split_ifs <;> assumption
    have hvce : validDate (if absOf sub.endDate ≤ absOf pe then sub.endDate else pe) := by
      split_ifs <;> assumption
    have hnneg : ¬(sub.mrrCents < 0 ∨ absOf sub.endDate < absOf sub.startDate) := by
      push_neg
      exact ⟨hmrr, hse⟩
    have hbuild : buildSegments sub ps pe =
        (monthTilesFrom
            ((if absOf sub.endDate ≤ absOf pe then sub.endDate else pe).mi + 1 -
              (if absOf ps ≤ absOf sub.startDate then sub.startDate else ps).mi)
            (if absOf ps ≤ absOf sub.startDate then sub.startDate else ps).mi
            (absOf (if absOf ps ≤ absOf sub.startDate then sub.startDate else ps))
            (absOf (if absOf sub.endDate ≤ absOf pe then sub.endDate else pe))).flatMap
          (fun t => (splitAtCuts t.2.1 t.2.2 (rampCuts sub t.2.1 t.2.2)).map
            (fun p => mkSegment sub t.1 p.1 p.2)) := by
      simp only [buildSegments]
      rw [if_neg hnneg, if_neg (by rw [hcs, hce]; omega)]
    have hcov := tiles_covers sub
      (if absOf ps ≤ absOf sub.startDate then sub.startDate else ps)
      (if absOf sub.endDate ≤ absOf pe then sub.endDate else pe)
      hvcs hvce hramp (by rw [hcs, hce]; omega)
    rw [← hbuild, hcs, hce] at hcov
    constructor
    · have hu := covers_union hcov
      rw [List.map_map] at hu
      have hcomp : ((fun p : ℕ × ℕ => Finset.Icc p.1 p.2) ∘
          (fun g : Segment => (g.segStart, g.segEnd))) =
          (fun g : Segment => Finset.Icc g.segStart g.segEnd) := by
        funext g; rfl
      rwa [hcomp] at hu
    · have hp := covers_pairwise hcov
      exact pairwise_proj hp
  · rw [buildSegments_empty sub ps pe hlt]
    exact ⟨by rw [Finset.Icc_eq_empty (by omega)]; rfl, List.Pairwise.nil⟩

/-- C4 witness: scenario S2, whose ten generated segments tile exactly the
clamped day range of the subscription inside the reporting period. -/
theorem c4_witness :
    ((buildSegments s2Sub rpStart rpEnd).map
        (fun g => Finset.Icc g.segStart g.segEnd)).foldr (· ∪ ·) ∅ =
      Finset.Icc (max (absOf s2Sub.startDate) (absOf rpStart))
        (min (absOf s2Sub.endDate) (absOf rpEnd)) ∧
    (buildSegments s2Sub rpStart rpEnd).Pairwise
      (fun g1 g2 => Disjoint (Finset.Icc g1.segStart g1.segEnd)
        (Finset.Icc g2.segStart g2.segEnd)) :=
  c4_segment_tiling s2Sub rpStart rpEnd (by decide) (by decide) (by decide)
    (by decide) (List.sorted_nil) (by decide) (by decide)

/-! ## Theorems for claims C6 to C9 -/

/-- C6: requesting analysis with a non-empty needs_review queue and no
explicit bypass fails with identity_review_required and produces no new
state; analysis starts exactly when the queue is empty or review is
bypassed. -/
theorem c6_analysis_gate (s : SessionState) (bypassReview : Bool) :
    (s.identity.pendingReview ≠ [] → bypassReview = false →
      analyzeOp bypassReview s = .error "identity_review_required") ∧
    (∀ s2, analyzeOp bypassReview s = .ok s2 →
      s.identity.pendingReview = [] ∨ bypassReview = true) ∧
    (s.identity.pendingReview = [] ∨ bypassReview = true →
      analyzeOp bypassReview s = .ok { s with status := .processing }) := by
  refine ⟨?_, ?_, ?_⟩
  · intro hq hb
    unfold analyzeOp
    rw [if_pos ⟨hq, hb⟩]
  · intro s2 h
    by_cases hc : s.identity.pendingReview ≠ [] ∧ bypassReview = false
    · unfold analyzeOp at h
      rw [if_pos hc] at h
      exact absurd h (by simp)
    · push_neg at hc
      by_cases hq : s.identity.pendingReview = []
      · exact Or.inl hq
      · right
        have := hc hq
        revert this
        cases bypassReview <;> simp
  · intro hd
    unfold analyzeOp
    rw [if_neg ?_]
    rintro ⟨hq, hb⟩
    rcases hd with hd | hd
    · exact hq hd
    · rw [hd] at hb
      cases hb

/-- C6 witness: a session holding one pending review match fails analysis
without bypass, and starts once the queue condition is met by bypass. -/
theorem c6_witness :
    analyzeOp false demoSession = .error "identity_review_required" ∧
    analyzeOp true demoSession = .ok { demoSession with status := .processing } :=
  ⟨(c6_analysis_gate demoSession false).1 (List.cons_ne_nil _ _) rfl,
   (c6_analysis_gate demoSession true).2.2 (Or.inr rfl)⟩

/-- C7: undo on an empty decision log does not fail destructively but
returns the no-decisions signal, and otherwise pops the most recent log
entry and restores the popped review entry to the head of the queue. -/
theorem c7_undo_behaviour (s : IdentityState) :
    (s.decisions = [] → undoOp s = .error "no decisions") ∧
    (∀ l d, s.decisions = l ++ [d] →
      undoOp s = .ok ⟨d.entry :: s.pendingReview, l⟩) := by
  constructor
  · intro h
    unfold undoOp
    rw [h]
    rfl
  · intro l d h
    unfold undoOp
    rw [h, List.getLast?_concat, List.dropLast_concat]

/-- C7 witness: undo on an empty log yields the no-decisions signal; undo
after one decision restores that decision entry to the queue head. -/
theorem c7_witness :
    undoOp ⟨[], []⟩ = .error "no decisions" ∧
    undoOp ⟨[], [demoDecision]⟩ = .ok ⟨[demoDecision.entry], []⟩ :=
  ⟨(c7_undo_behaviour ⟨[], []⟩).1 rfl,
   (c7_undo_behaviour ⟨[], [demoDecision]⟩).2 [] demoDecision rfl⟩

/-- C8: resolve is a pure function emitting the spine sorted by account
id; replaying resolve with the decision log it returns reproduces the same
result (idempotence on replay), and an undo of the last decision followed
by the same decision restores the same result. -/
theorem c8_resolve_properties (accounts : List Account) (customers : List Customer)
    (log : List LogEntry) :
    List.Sorted linkByAccountId (resolve accounts customers log).spine ∧
    resolve accounts customers (resolve accounts customers log).decisionLog =
      resolve accounts customers log ∧
    ∀ (m : String) (d : Decision),
      resolve accounts customers
          ((log ++ [LogEntry.mk m d]).dropLast ++ [LogEntry.mk m d]) =
        resolve accounts customers (log ++ [LogEntry.mk m d]) := by
  refine ⟨List.sorted_insertionSort linkByAccountId _, rfl, ?_⟩
  intro m d
  rw [List.dropLast_concat]

/-- C9 counterexample: the frontend status map STATUS_ORDER recognizes the
session status validated, which is outside the five values claimed by the
specification. -/
theorem c9_claim_counterexample :
    statusOrder "validated" = some 2 ∧ "validated" ∉ claimedStatuses := by
  decide

/-- C9 (amended): session statuses range over the six values known to the
frontend (the five of the specification plus validated, ranked with
identity_review); every transition of the modelled machine either is an
identity/reset landing on identity_review or advances the STATUS_ORDER
rank monotonically, and reset always lands on identity_review. -/
theorem c9_status_transitions :
    (∀ s t : SessionStatus, sessionStep s t = true →
      t = SessionStatus.identity_review ∨
        (statusOrder (statusString s)).getD 0 ≤ (statusOrder (statusString t)).getD 0) ∧
    (∀ s t : SessionStatus, resetStep s t = true → t = SessionStatus.identity_review) ∧
    (∀ s : SessionStatus, statusString s ∈
      ["created", "validated", "identity_review", "processing", "completed", "error"]) ∧
    statusOrder "validated" = some 2 := by
  refine ⟨?_, ?_, ?_, by decide⟩
  · decide
  · decide
  · decide

/-- C9 witness: the forward transition from identity_review to processing
advances the rank. -/
theorem c9_witness :
    SessionStatus.processing = SessionStatus.identity_review ∨
      (statusOrder (statusString SessionStatus.identity_review)).getD 0 ≤
        (statusOrder (statusString SessionStatus.processing)).getD 0 :=
  c9_status_transitions.1 SessionStatus.identity_review SessionStatus.processing
    (by decide)

end RevStrux
